import Mathlib

/-!
Verification of the glossary core of the mstlah repository:
the markdown term parser (src/lib/md-parser.ts), the term validator
(scripts/validate-terms.ts) and the index/approver aggregation
(scripts/generate-index.ts).

JavaScript strings are modelled as lists of characters (`Str`); the
JavaScript string primitives used by the code (trim, split, startsWith,
slice, replace of a leading "## ", toLowerCase, toUpperCase on ASCII)
are modelled character-exactly below.  The two locale-sensitive
comparison functions (`String.prototype.localeCompare` with no locale
argument, and with the "ar" locale) are modelled as abstract comparator
parameters `lc` and `lcAr` returning an `Ordering`; `Array.prototype.sort`,
which is a stable sort, is modelled as a stable insertion sort over the
comparator.  File-system reads are modelled by passing directory entries
(name, kind, contents) as data.
-/

/-- JavaScript strings, modelled as lists of characters. -/
abbrev Str : Type := List Char

/-- Converts a Lean string literal to the `Str` model. -/
def str (s : String) : Str := s.data

/-- The JavaScript whitespace class `\s` (the same set that
`String.prototype.trim` removes). -/
def isWs (c : Char) : Bool :=
  c == ' ' || c == '\t' || c == '\n' || c == '\r' || c == '\u000b' || c == '\u000c' ||
  c == '\u00A0' || c == '\u1680' ||
  (decide (0x2000 ≤ c.toNat) && decide (c.toNat ≤ 0x200A)) ||
  c == '\u2028' || c == '\u2029' || c == '\u202F' || c == '\u205F' ||
  c == '\u3000' || c == '\uFEFF'

/-- Removal of trailing JavaScript whitespace. -/
def trimEnd (s : Str) : Str := (s.reverse.dropWhile isWs).reverse

/-- `String.prototype.trim`. -/
def jsTrim (s : Str) : Str := trimEnd (s.dropWhile isWs)

/-- `s.startsWith p` on JavaScript strings (`begins p s`). -/
def begins : Str → Str → Bool
  | [], _ => true
  | _ :: _, [] => false
  | p :: ps, c :: cs => p == c && begins ps cs

/-- `content.split("\n")`. -/
def splitNl : Str → List Str
  | [] => [[]]
  | c :: rest =>
    if c = '\n' then [] :: splitNl rest
    else
      match splitNl rest with
      | [] => [[c]]
      | l :: ls => (c :: l) :: ls

/-- Helper for `wsTokens`: `acc` is the current token, reversed. -/
def wsTokensAux : Str → Str → List Str
  | [], acc => if acc.isEmpty then [] else [acc.reverse]
  | c :: rest, acc =>
    if isWs c then
      if acc.isEmpty then wsTokensAux rest [] else acc.reverse :: wsTokensAux rest []
    else wsTokensAux rest (c :: acc)

/-- The maximal runs of non-whitespace characters of `s`: the result of
`s.split(/\s+/)` with empty fragments removed (the JavaScript split can
additionally produce an empty leading or trailing fragment, which every
use site in the code filters out or is unaffected by). -/
def wsTokens (s : Str) : List Str := wsTokensAux s []

/-- ASCII `toLowerCase`, applied characterwise. -/
def lowerStr (s : Str) : Str := s.map Char.toLower

/-- Decimal representation of a number, as interpolated by
JavaScript template literals. -/
def natStr (n : Nat) : Str := (Nat.repr n).data

/-- The Arabic-script test of `containsArabic`
(ranges U+0600–U+06FF, U+0750–U+077F, U+08A0–U+08FF, U+FB50–U+FDFF,
U+FE70–U+FEFF). -/
def isArabicChar (c : Char) : Bool :=
  (decide (0x0600 ≤ c.toNat) && decide (c.toNat ≤ 0x06FF)) ||
  (decide (0x0750 ≤ c.toNat) && decide (c.toNat ≤ 0x077F)) ||
  (decide (0x08A0 ≤ c.toNat) && decide (c.toNat ≤ 0x08FF)) ||
  (decide (0xFB50 ≤ c.toNat) && decide (c.toNat ≤ 0xFDFF)) ||
  (decide (0xFE70 ≤ c.toNat) && decide (c.toNat ≤ 0xFEFF))

/-- `containsArabic` from scripts/validate-terms.ts: the text contains at
least one Arabic-script character (empty or non-string input yields false). -/
def containsArabic (s : Str) : Bool := s.any isArabicChar

/-! ## The term parser (src/lib/md-parser.ts) -/

/-- The `SectionState` enumeration of md-parser.ts. -/
inductive SectionState
  | none
  | description
  | tags
  | arabicWords
  | approvedBy
  | unknown
deriving DecidableEq, Repr

/-- One Arabic word with its approver list. -/
structure ArabicWord where
  word : Str
  approvedBy : List Str
deriving DecidableEq, Repr

/-- The parsed `Term` record.  The `abbrev` field of the source is named
`abbrv` here because `abbrev` is a Lean keyword. -/
structure Term where
  title : Str
  abbrv : Str
  description : Str
  tags : List Str
  arabicWords : List ArabicWord
deriving DecidableEq, Repr

/-- The parser's mutable state: the partial result, the current section,
and the `titleFound` latch.  The source also keeps a `currentArabicWord`
reference; it always aliases the most recently pushed element of
`result.arabicWords` (it is assigned only when a word is pushed), so it
is represented by the last element of that list, and its non-nullness by
the list being nonempty. -/
structure PState where
  result : Term
  currentSection : SectionState
  titleFound : Bool
deriving DecidableEq, Repr

/-- The freshly initialised result record. -/
def emptyTerm : Term := ⟨[], [], [], [], []⟩

/-- The parser state before the first line. -/
def initState : PState := ⟨emptyTerm, SectionState.none, false⟩

/-- Whether a character is matched by `.` in a JavaScript regex
(without the `s` flag): anything but a line terminator. -/
def dotOk (c : Char) : Bool :=
  !(c == '\n' || c == '\r' || c == '\u2028' || c == '\u2029')

/-- Whether `s` fully matches `\s*\(([^)]+)\)`; if so, returns the group. -/
def parenTail (s : Str) : Option Str :=
  match s.dropWhile isWs with
  | '(' :: more =>
    if more.getLast? == some ')' && !more.dropLast.isEmpty && !more.dropLast.contains ')' then
      some more.dropLast
    else Option.none
  | _ => Option.none

/-- The backtracking search of `/^# (.+?)(?:\s*\(([^)]+)\))?$/` applied to
the text after `"# "`: the lazy group grows one character at a time
(each character must be matched by `.`), and after each character the
remainder is tested against the optional parenthetical; the first split
that works wins.  Returns the (reversed-accumulator-corrected) group 1
and group 2 (`[]` when the parenthetical is absent). -/
def titleScan (acc : Str) : Str → Option (Str × Str)
  | [] => some (acc.reverse, [])
  | c :: rest =>
    if dotOk c then
      match parenTail rest with
      | some inner => some ((c :: acc).reverse, inner)
      | Option.none => titleScan (c :: acc) rest
    else Option.none

/-- Matching `/^# (.+?)(?:\s*\(([^)]+)\))?$/` against `"# " ++ rest`:
fails when nothing remains after the `"# "`. -/
def titleMatch (rest : Str) : Option (Str × Str) :=
  match rest with
  | [] => Option.none
  | _ => titleScan [] rest

/-- `currentArabicWord.approvedBy.push(item)`: the current Arabic word is
always the last pushed one, so the push mutates the last element. -/
def pushApprover : List ArabicWord → Str → List ArabicWord
  | [], _ => []
  | [w], u => [⟨w.word, w.approvedBy ++ [u]⟩]
  | w :: ws, u => w :: pushApprover ws u

/-- One iteration of the line loop of `parseMarkdown`, translated
branch for branch in source order. -/
def processLine (st : PState) (line : Str) : PState :=
  let t := jsTrim line
  if t = [] ∧ st.currentSection ≠ SectionState.description then st
  else if st.titleFound = false ∧ begins (str "# ") t = true ∧ begins (str "## ") t = false then
    match titleMatch (t.drop 2) with
    | some m =>
      { st with
        result := { st.result with title := jsTrim m.1, abbrv := m.2 },
        titleFound := true,
        currentSection := SectionState.none }
    | Option.none => { st with currentSection := SectionState.none }
  else if t = str "## Description" then
    { st with
      currentSection := SectionState.description,
      result := { st.result with description := [] } }
  else if t = str "## Tags" then
    { st with currentSection := SectionState.tags }
  else if t = str "# Arabic Words" then
    { st with currentSection := SectionState.arabicWords }
  else if begins (str "## ") t = true ∧
      (st.currentSection = SectionState.arabicWords ∨
        st.currentSection = SectionState.approvedBy) then
    { st with
      result := { st.result with
        arabicWords := st.result.arabicWords ++ [⟨jsTrim (t.drop 3), []⟩] },
      currentSection := SectionState.arabicWords }
  else if t = str "### Approved By" ∧ st.result.arabicWords ≠ [] then
    { st with currentSection := SectionState.approvedBy }
  else if begins (str "- ") t = true then
    let item := jsTrim (t.drop 2)
    if st.currentSection = SectionState.tags then
      { st with result := { st.result with tags := st.result.tags ++ [item] } }
    else if st.currentSection = SectionState.approvedBy ∧ st.result.arabicWords ≠ [] then
      { st with result := { st.result with
        arabicWords := pushApprover st.result.arabicWords item } }
    else st
  else if st.currentSection = SectionState.description ∧ begins (str "## ") t = true then
    { st with currentSection := SectionState.unknown }
  else if st.currentSection = SectionState.description then
    if t ≠ [] then
      { st with result := { st.result with
        description := st.result.description ++ t ++ ['\n'] } }
    else st
  else st

/-- The stop-word set of `generateAbbreviation`. -/
def ignoreWords : List Str :=
  [str "the", str "a", str "an", str "in", str "on", str "at", str "for",
   str "with", str "by", str "and", str "or", str "as", str "is", str "are",
   str "was", str "were", str "be", str "been", str "being"]

/-- `generateAbbreviation` from md-parser.ts: empty result for
empty or whitespace-only input, otherwise the concatenated uppercased
first characters of the whitespace-separated tokens that are nonempty
and whose lowercase form is not a stop word. -/
def generateAbbreviation (title : Str) : Str :=
  if jsTrim title = [] then []
  else
    (((wsTokens title).filter fun w =>
        !w.isEmpty && !ignoreWords.contains (lowerStr w)).map fun w =>
      match w with
      | [] => []
      | c :: _ => [c.toUpper]).flatten

/-- `parseMarkdown` from md-parser.ts: the line loop followed by the
description trim and the abbreviation auto-generation for multi-word
titles. -/
def parseMarkdown (content : Str) : Term :=
  let st := (splitNl content).foldl processLine initState
  let r := st.result
  let r := { r with description := jsTrim r.description }
  if r.abbrv = [] ∧ r.title ≠ [] ∧ 1 < (wsTokens (jsTrim r.title)).length then
    { r with abbrv := generateAbbreviation r.title }
  else r

/-- `isValidTerm` from md-parser.ts.  The source also checks that the
title is a string and that `tags` and `arabicWords` are arrays; on the
typed `Term` record those checks hold by construction, leaving the
non-emptiness of the title. -/
def isValidTerm (t : Term) : Bool := !t.title.isEmpty

/-- `filename.replace(/\.md$/i, "")` needs: do the last three characters
spell `.md` case-insensitively? -/
def mdSuffix (s : Str) : Bool :=
  begins (str "dm.") (s.reverse.map Char.toLower)

/-- `extractSlug` (identical in md-parser.ts and generate-index.ts):
strips one trailing `.md`, case-insensitively. -/
def extractSlug (filename : Str) : Str :=
  if mdSuffix filename then filename.take (filename.length - 3) else filename

/-- `entry.name.endsWith(".md")` — the case-sensitive filter used by the
index builders. -/
def endsMd (s : Str) : Bool :=
  begins (str "dm.") s.reverse

/-! ## The term validator (scripts/validate-terms.ts) -/

/-- The validation error categories. -/
inductive ErrType
  | required
  | format
  | content
deriving DecidableEq, Repr

/-- A `ValidationError` record `{file, type, message, line?}`. -/
structure VError where
  file : Str
  etype : ErrType
  message : Str
  line : Option Nat
deriving DecidableEq, Repr

/-- Helper for `findLineNumber`: `i` is the current 0-based index and
`cnt` the number of matches seen so far. -/
def findLineAux (pat : Str → Bool) (occ : Nat) : List Str → Nat → Nat → Option Nat
  | [], _, _ => Option.none
  | l :: rest, i, cnt =>
    if pat (jsTrim l) then
      if cnt + 1 = occ then some (i + 1)
      else findLineAux pat occ rest (i + 1) (cnt + 1)
    else findLineAux pat occ rest (i + 1) cnt

/-- `findLineNumber` from validate-terms.ts: the 1-based number of the
`occ`-th line whose trimmed text matches the pattern. -/
def findLineNumber (lines : List Str) (pat : Str → Bool) (occ : Nat) : Option Nat :=
  findLineAux pat occ lines 0 0

/-- The pattern `/^# /`. -/
def patH1 (t : Str) : Bool := begins (str "# ") t

/-- The pattern `/^## Description$/`. -/
def patDesc (t : Str) : Bool := t == str "## Description"

/-- The pattern `/^## Tags$/`. -/
def patTags (t : Str) : Bool := t == str "## Tags"

/-- The pattern `/^# Arabic Words$/`. -/
def patAWords (t : Str) : Bool := t == str "# Arabic Words"

/-- The pattern `/^### Approved By$/`. -/
def patAB (t : Str) : Bool := t == str "### Approved By"

/-- The pattern `/^## .+$/`: `"## "` followed by at least one character,
each matched by `.`. -/
def patWordAny (t : Str) : Bool :=
  begins (str "## ") t && !(t.drop 3).isEmpty && (t.drop 3).all dotOk

/-- The pattern built as `^## ${escapeRegex(word)}$`: since all regex
metacharacters of the word are escaped, it matches exactly the literal
line `"## " ++ word`. -/
def patWordExact (w : Str) (t : Str) : Bool := t == str "## " ++ w

/-- Message of the missing-title structural error. -/
def msgTitleReq : Str := str "Missing or empty title (expected: # Title)"

/-- Message of the missing-description error. -/
def msgDescReq : Str :=
  str "Missing or empty description (expected: ## Description with Arabic content)"

/-- Message of the non-Arabic-description error. -/
def msgDescAr : Str := str "Description must be in Arabic"

/-- Message of the missing-tags error. -/
def msgTagsReq : Str :=
  str "At least one tag is required (expected: - tagname in ## Tags section)"

/-- `list.join(", ")`. -/
def joinComma : List Str → Str
  | [] => []
  | [x] => x
  | x :: xs => x ++ str ", " ++ joinComma xs

/-- Message of the non-Arabic-tags error. -/
def msgTagsAr (bad : List Str) : Str :=
  str "All tags must be in Arabic. Non-Arabic tags: " ++ joinComma bad

/-- Message of the no-Arabic-words error. -/
def msgWordsReq : Str :=
  str "At least one Arabic word is required (expected: ## Arabic Word in # Arabic Words section)"

/-- Message `Arabic word #${n} is empty`. -/
def emptyWordMsg (n : Nat) : Str :=
  str "Arabic word #" ++ natStr n ++ str " is empty"

/-- Message `Arabic word #${n} must be in Arabic: "${w}"`. -/
def nonArabicWordMsg (n : Nat) (w : Str) : Str :=
  str "Arabic word #" ++ natStr n ++ str " must be in Arabic: \"" ++ w ++ str "\""

/-- Message `Arabic word "${w}" must have at least one approver (...)`. -/
def noApproverMsg (w : Str) : Str :=
  str "Arabic word \"" ++ w ++
    str "\" must have at least one approver (expected: ### Approved By with - username)"

/-- The errors contributed by the Arabic word at 0-based index `i` in the
`forEach` loop of `validateTermStructure`. -/
def arabicWordErrors (filename : Str) (lines : List Str) (i : Nat) (aw : ArabicWord) :
    List VError :=
  (if jsTrim aw.word = [] then
    [⟨filename, ErrType.required, emptyWordMsg (i + 1),
      findLineNumber lines patWordAny (i + 1)⟩]
  else if containsArabic aw.word = false then
    [⟨filename, ErrType.content, nonArabicWordMsg (i + 1) aw.word,
      findLineNumber lines (patWordExact aw.word) 1⟩]
  else [])
  ++
  (if aw.approvedBy = [] then
    [⟨filename, ErrType.required, noApproverMsg aw.word,
      findLineNumber lines patAB 1⟩]
  else [])

/-- The structural (gate-failure) branch of `validateTermStructure`.
On the typed `Term` record the `Array.isArray` checks for `tags` and
`arabicWords` cannot fail, leaving the title check. -/
def structuralErrors (term : Term) (lines : List Str) (filename : Str) : List VError :=
  if term.title = [] then
    [⟨filename, ErrType.required, msgTitleReq, findLineNumber lines patH1 1⟩]
  else []

/-- The description and tags checks of `validateTermStructure`. -/
def headerErrors (term : Term) (lines : List Str) (filename : Str) : List VError :=
  (if jsTrim term.description = [] then
    [⟨filename, ErrType.required, msgDescReq, findLineNumber lines patDesc 1⟩]
  else if containsArabic term.description = false then
    [⟨filename, ErrType.content, msgDescAr, findLineNumber lines patDesc 1⟩]
  else [])
  ++
  (if term.tags = [] then
    [⟨filename, ErrType.required, msgTagsReq, findLineNumber lines patTags 1⟩]
  else
    let bad := term.tags.filter fun tag => containsArabic tag = false
    if bad ≠ [] then
      [⟨filename, ErrType.content, msgTagsAr bad, findLineNumber lines patTags 1⟩]
    else [])

/-- The Arabic-words section check of `validateTermStructure`. -/
def wordSectionErrors (term : Term) (lines : List Str) (filename : Str) : List VError :=
  if term.arabicWords = [] then
    [⟨filename, ErrType.required, msgWordsReq, findLineNumber lines patAWords 1⟩]
  else
    (term.arabicWords.enum.map fun p => arabicWordErrors filename lines p.1 p.2).flatten

/-- `validateTermStructure` from validate-terms.ts. -/
def validateTermStructure (term : Term) (content : Str) (filename : Str) : List VError :=
  let lines := splitNl content
  if isValidTerm term = false then structuralErrors term lines filename
  else
    headerErrors term lines filename ++ wordSectionErrors term lines filename

/-! ## The approver aggregator and index builders (scripts/generate-index.ts) -/

/-- An Arabic word as seen by `aggregateApprovers`, whose code guards
against a missing `approvedBy`. -/
structure LooseWord where
  approvedBy : Option (List Str)
deriving DecidableEq, Repr

/-- A term as seen by `aggregateApprovers`, whose code guards against a
missing `arabicWords`. -/
structure LooseTerm where
  arabicWords : Option (List LooseWord)
deriving DecidableEq, Repr

/-- An `ApproverInfo` record `{username, approveCount}`. -/
structure ApproverInfo where
  username : Str
  approveCount : Nat
deriving DecidableEq, Repr

/-- `approverCounts.set(username, (approverCounts.get(username) || 0) + 1)`
on a JavaScript `Map`, which preserves insertion order: an existing key
is updated in place, a new key is appended. -/
def bump : List (Str × Nat) → Str → List (Str × Nat)
  | [], u => [(u, 1)]
  | (k, v) :: rest, u =>
    if k = u then (k, v + 1) :: rest else (k, v) :: bump rest u

/-- The inner loop of `aggregateApprovers` over one Arabic word. -/
def bumpWord (m : List (Str × Nat)) (w : LooseWord) : List (Str × Nat) :=
  match w.approvedBy with
  | Option.none => m
  | some us => us.foldl bump m

/-- The loop of `aggregateApprovers` over one term. -/
def bumpTerm (m : List (Str × Nat)) (t : LooseTerm) : List (Str × Nat) :=
  match t.arabicWords with
  | Option.none => m
  | some ws => ws.foldl bumpWord m

/-- The username-to-count map built by `aggregateApprovers`,
in insertion order. -/
def approverCounts (terms : List LooseTerm) : List (Str × Nat) :=
  terms.foldl bumpTerm []

/-- `Array.prototype.sort` with the comparator
`(a, b) => cmp (key a) (key b)`: a stable sort placing `a` no later than
`b` whenever the comparator does not answer `gt`. -/
def sortByCmp {α : Type} (key : α → Str) (cmp : Str → Str → Ordering) (l : List α) :
    List α :=
  List.insertionSort (fun a b => cmp (key a) (key b) ≠ Ordering.gt) l

/-- `aggregateApprovers` from generate-index.ts, over the abstract
default collation `lc` (`localeCompare` with no locale argument). -/
def aggregateApprovers (lc : Str → Str → Ordering) (terms : List LooseTerm) :
    List ApproverInfo :=
  sortByCmp (fun e => e.username) lc
    ((approverCounts terms).map fun p => ⟨p.1, p.2⟩)

/-- A directory entry with its file contents (`none` models an unreadable
file, whose read error `parseTermFile` catches). -/
structure DirEntry where
  name : Str
  isFile : Bool
  content : Option Str
deriving DecidableEq, Repr

/-- A `TermIndex` record `{slug, title, abbrev?}`; a `none` abbreviation
models the key being absent from the emitted object. -/
structure TermIndex where
  slug : Str
  title : Str
  abbrv : Option Str
deriving DecidableEq, Repr

/-- A `CategoryIndex` record; `generatedAt` is the timestamp string
produced by the external clock. -/
structure CategoryIndex where
  terms : List TermIndex
  generatedAt : Str
deriving DecidableEq, Repr

/-- `parseTermFile` from generate-index.ts: `none` on a read error or
when the parsed term fails `isValidTerm` (for string contents
`parseMarkdown` never throws, so the catch only sees read errors). -/
def parseTermFile (e : DirEntry) : Option Term :=
  match e.content with
  | Option.none => Option.none
  | some c =>
    let t := parseMarkdown c
    if isValidTerm t then some t else Option.none

/-- The `TermIndex` object literal built by both index builders:
`{slug, title, ...(term.abbrev && {abbrev: term.abbrev})}` — the
`abbrev` key is present exactly when the term's abbreviation is a
nonempty string. -/
def toTermIndex (filename : Str) (t : Term) : TermIndex :=
  ⟨extractSlug filename, t.title, if t.abbrv = [] then Option.none else some t.abbrv⟩

/-- `generateIndex` from generate-index.ts, over a directory listing. -/
def generateIndex (lc : Str → Str → Ordering) (entries : List DirEntry) (now : Str) :
    CategoryIndex :=
  let terms := entries.foldl (fun acc e =>
    if e.isFile && endsMd e.name then
      match parseTermFile e with
      | some t => acc ++ [toTermIndex e.name t]
      | Option.none => acc
    else acc) []
  ⟨sortByCmp (fun ti => ti.title) lc terms, now⟩

/-- The result of `readCategoryMeta` when a usable `meta.json` exists. -/
structure CategoryMeta where
  name : Str
  description : Option Str
deriving DecidableEq, Repr

/-- A subdirectory entry of the data directory: its name, kind, the
result of `readCategoryMeta` on it, and its own directory listing. -/
structure CatDirEntry where
  name : Str
  isDirectory : Bool
  meta : Option CategoryMeta
  files : List DirEntry
deriving DecidableEq, Repr

/-- One category of the `RootIndex`. -/
structure CategoryEntry where
  path : Str
  name : Str
  description : Option Str
  termsCount : Nat
  approvers : List ApproverInfo
  terms : List TermIndex
deriving DecidableEq, Repr

/-- The `RootIndex` record. -/
structure RootIndex where
  categories : List CategoryEntry
  generatedAt : Str
deriving DecidableEq, Repr

/-- The view of a parsed `Term` taken by `aggregateApprovers` (all
fields present). -/
def termToLoose (t : Term) : LooseTerm :=
  ⟨some (t.arabicWords.map fun w => ⟨some w.approvedBy⟩)⟩

/-- The per-category file loop of `generateCategoriesIndex`: collects
the parsed terms and their `TermIndex` projections. -/
def collectCategory (files : List DirEntry) : List Term × List TermIndex :=
  files.foldl (fun p f =>
    if f.isFile && endsMd f.name then
      match parseTermFile f with
      | some t => (p.1 ++ [t], p.2 ++ [toTermIndex f.name t])
      | Option.none => p
    else p) ([], [])

/-- `generateCategoriesIndex` from generate-index.ts: `lc` is the
default collation, `lcAr` the collation `localeCompare(..., "ar")`. -/
def generateCategoriesIndex (lc lcAr : Str → Str → Ordering)
    (entries : List CatDirEntry) (now : Str) : RootIndex :=
  let categories := entries.foldl (fun acc e =>
    if e.isDirectory then
      let p := collectCategory e.files
      if 0 < p.1.length then
        acc ++ [⟨e.name,
          (match e.meta with
            | some m => if m.name = [] then e.name else m.name
            | Option.none => e.name),
          (match e.meta with
            | some m => m.description
            | Option.none => Option.none),
          p.1.length,
          aggregateApprovers lc (p.1.map termToLoose),
          sortByCmp (fun ti => ti.title) lc p.2⟩]
      else acc
    else acc) []
  ⟨sortByCmp (fun c => c.name) lcAr categories, now⟩

/-- A JavaScript value passed to `parseMarkdown`: a string, or any
non-string value (carrying a tag naming its kind). -/
inductive JSValue
  | strv (s : Str)
  | nonStr (tag : Str)
deriving DecidableEq, Repr

/-- `parseMarkdown` including its `typeof content !== "string"` guard:
non-string input signals the invalid-argument error. -/
def parseMarkdownJS (v : JSValue) : Except Str Term :=
  match v with
  | JSValue.strv s => Except.ok (parseMarkdown s)
  | JSValue.nonStr _ => Except.error (str "Content must be a string")

/-! ## Definitions written from the specification's words
(for refinement claims; marked `...Spec`) -/

/-- Modelled from claim C4's words: split on whitespace, drop tokens
whose lowercase form is in the stop-word set, concatenate the uppercase
first character of each remaining token in order; empty result for
empty or whitespace-only input. -/
def generateAbbreviationSpec (title : Str) : Str :=
  if jsTrim title = [] then []
  else
    (((wsTokens title).filter fun w => !ignoreWords.contains (lowerStr w)).map fun w =>
      match w with
      | [] => []
      | c :: _ => [c.toUpper]).flatten

/-- Modelled from claim C2's words, for the word at 0-based index `i`:
a `required` error with the indexed message `Arabic word #N is empty`
when the word text is empty or blank; otherwise a `content` error
quoting the word when it is not Arabic-scripted; and, independently, a
`required` error quoting the word when its approver list is empty. -/
def wordErrorsSpec (filename : Str) (lines : List Str) (i : Nat) (aw : ArabicWord) :
    List VError :=
  (if jsTrim aw.word = [] then
    [⟨filename, ErrType.required, emptyWordMsg (i + 1),
      findLineNumber lines patWordAny (i + 1)⟩]
  else if containsArabic aw.word = false then
    [⟨filename, ErrType.content, nonArabicWordMsg (i + 1) aw.word,
      findLineNumber lines (patWordExact aw.word) 1⟩]
  else [])
  ++
  (if aw.approvedBy = [] then
    [⟨filename, ErrType.required, noApproverMsg aw.word,
      findLineNumber lines patAB 1⟩]
  else [])

/-- Modelled from claim C3's words: the total number of occurrences of
username `u` across all `approvedBy` lists of all Arabic words of all
terms (missing `arabicWords` or `approvedBy` contributing nothing). -/
def occCount (u : Str) (terms : List LooseTerm) : Nat :=
  (terms.map fun t =>
    match t.arabicWords with
    | Option.none => 0
    | some ws =>
      (ws.map fun w =>
        match w.approvedBy with
        | Option.none => 0
        | some us => us.count u).sum).sum

/-! ## Lemmas about the string primitives -/

lemma dropWhile_head_not {p : Char → Bool} :
    ∀ (l : Str) {a : Char} {t : Str}, l.dropWhile p = a :: t → p a = false := by
  intro l
  induction l with
  | nil => intro a t h; simp [List.dropWhile] at h
  | cons c cs ih =>
    intro a t h
    by_cases hc : p c
    · rw [List.dropWhile_cons_of_pos hc] at h
      exact ih h
    · rw [List.dropWhile_cons_of_neg hc] at h
      cases h
      simpa using hc

lemma trimEnd_eq_nil_or_last (l : Str) :
    trimEnd l = [] ∨ ∃ m a, trimEnd l = m ++ [a] ∧ isWs a = false := by
  unfold trimEnd
  cases hd : l.reverse.dropWhile isWs with
  | nil => left; simp
  | cons a t =>
    right
    exact ⟨t.reverse, a, by simp, dropWhile_head_not _ hd⟩

lemma jsTrim_eq_nil_or_last (l : Str) :
    jsTrim l = [] ∨ ∃ m a, jsTrim l = m ++ [a] ∧ isWs a = false :=
  trimEnd_eq_nil_or_last _

lemma jsTrim_eq_nil_iff (l : Str) :
    jsTrim l = [] ↔ ∀ c ∈ l, isWs c = true := by
  constructor
  · intro h c hc
    have h2 : (l.dropWhile isWs).reverse.dropWhile isWs = [] := by
      have := congrArg List.reverse h
      simpa [jsTrim, trimEnd] using this
    rw [List.dropWhile_eq_nil_iff] at h2
    have hdw : ∀ x ∈ l.dropWhile isWs, isWs x := fun x hx => h2 x (by simpa using hx)
    have hl : c ∈ l.takeWhile isWs ++ l.dropWhile isWs := by
      rw [List.takeWhile_append_dropWhile]; exact hc
    rcases List.mem_append.mp hl with h3 | h3
    · exact List.mem_takeWhile_imp h3
    · exact hdw c h3
  · intro h
    have : l.dropWhile isWs = [] := List.dropWhile_eq_nil_iff.mpr fun x hx => h x hx
    simp [jsTrim, this, trimEnd]

lemma begins_iff (p s : Str) : begins p s = true ↔ ∃ r, s = p ++ r := by
  induction p generalizing s with
  | nil => simp [begins]
  | cons a ps ih =>
    cases s with
    | nil => simp [begins]
    | cons c cs =>
      simp only [begins, Bool.and_eq_true, beq_iff_eq, ih, List.cons_append]
      constructor
      · rintro ⟨rfl, r, rfl⟩
        exact ⟨r, rfl⟩
      · rintro ⟨r, hr⟩
        cases hr
        exact ⟨rfl, r, rfl⟩

lemma getLast?_of_mem_last {l : Str} {a : Char} (h : l.getLast? = some a) : a ∈ l := by
  induction l with
  | nil => simp at h
  | cons c cs ih =>
    cases cs with
    | nil => simp_all
    | cons d ds =>
      rw [List.getLast?_cons_cons] at h
      exact List.mem_cons_of_mem _ (ih h)

/-- A `"## "`-prefixed trimmed line has a non-whitespace character after
the prefix, even after trimming again: the word text of a pushed Arabic
word heading is never blank. -/
lemma heading_word_has_ink (line : Str)
    (h : begins (str "## ") (jsTrim line) = true) :
    ∃ c ∈ jsTrim ((jsTrim line).drop 3), isWs c = false := by
  rcases jsTrim_eq_nil_or_last line with h0 | ⟨m, a, hm, ha⟩
  · rw [h0] at h
    exact absurd h (by decide)
  · obtain ⟨r, hr⟩ := (begins_iff _ _).mp h
    have hdrop : (jsTrim line).drop 3 = r := by
      rw [hr]; rfl
    by_cases hrnil : r = []
    · exfalso
      subst hrnil
      rw [hr] at hm
      have h1 : (str "## " ++ ([] : Str)).getLast? = some a := by
        rw [hm]
        rw [List.getLast?_append_of_ne_nil m (by simp)]
        rfl
      have h2 : a = ' ' := by
        have : (str "## " ++ ([] : Str)).getLast? = some ' ' := by decide
        rw [this] at h1
        exact (Option.some.inj h1).symm
      rw [h2] at ha
      exact absurd ha (by decide)
    · have h1 : r.getLast? = some a := by
        have e1 : (jsTrim line).getLast? = some a := by
          rw [hm, List.getLast?_append_of_ne_nil m (by simp)]
          rfl
        rw [hr, List.getLast?_append_of_ne_nil _ hrnil] at e1
        exact e1
      have hmem : a ∈ r := getLast?_of_mem_last h1
      have hne : jsTrim r ≠ [] := by
        intro hnil
        have := (jsTrim_eq_nil_iff r).mp hnil a hmem
        rw [this] at ha
        exact absurd ha (by simp)
      rcases jsTrim_eq_nil_or_last r with h0 | ⟨m2, a2, hm2, ha2⟩
      · exact absurd h0 hne
      · refine ⟨a2, ?_, ha2⟩
        rw [hdrop, hm2]
        simp

/-- Generic preservation of an invariant through a left fold. -/
lemma foldl_inv {α σ : Type} (f : σ → α → σ) (P : σ → Prop)
    (hf : ∀ s a, P s → P (f s a)) :
    ∀ (l : List α) (s : σ), P s → P (l.foldl f s) := by
  intro l
  induction l with
  | nil => intro s h; exact h
  | cons a l ih => intro s h; exact ih _ (hf s a h)

lemma pushApprover_word (u : Str) :
    ∀ (ws : List ArabicWord), ∀ w ∈ pushApprover ws u, ∃ w0 ∈ ws, w.word = w0.word
  | [] => by simp [pushApprover]
  | [a] => by
    intro w hw
    simp [pushApprover] at hw
    subst hw
    exact ⟨a, by simp, rfl⟩
  | a :: b :: t => by
    intro w hw
    simp only [pushApprover, List.mem_cons] at hw
    rcases hw with h | hw
    · exact ⟨a, List.mem_cons_self _ _, by rw [h]⟩
    · obtain ⟨w0, hm, he⟩ := pushApprover_word u (b :: t) w hw
      exact ⟨w0, List.mem_cons_of_mem _ hm, he⟩


/-- Every branch of the line loop preserves the invariant that every
recorded Arabic word contains a non-whitespace character. -/
lemma processLine_ink (st : PState) (line : Str)
    (h : ∀ w ∈ st.result.arabicWords, ∃ c ∈ w.word, isWs c = false) :
    ∀ w ∈ (processLine st line).result.arabicWords, ∃ c ∈ w.word, isWs c = false := by
  intro w hw
  rw [processLine.eq_def] at hw
  by_cases h1 : jsTrim line = [] ∧ st.currentSection ≠ SectionState.description
  · rw [if_pos h1] at hw
    exact h w hw
  rw [if_neg h1] at hw
  by_cases h2 : st.titleFound = false ∧ begins (str "# ") (jsTrim line) = true ∧
      begins (str "## ") (jsTrim line) = false
  · rw [if_pos h2] at hw
    split at hw
    · exact h w hw
    · exact h w hw
  rw [if_neg h2] at hw
  by_cases h3 : jsTrim line = str "## Description"
  · rw [if_pos h3] at hw
    exact h w hw
  rw [if_neg h3] at hw
  by_cases h4 : jsTrim line = str "## Tags"
  · rw [if_pos h4] at hw
    exact h w hw
  rw [if_neg h4] at hw
  by_cases h5 : jsTrim line = str "# Arabic Words"
  · rw [if_pos h5] at hw
    exact h w hw
  rw [if_neg h5] at hw
  by_cases h6 : begins (str "## ") (jsTrim line) = true ∧
      (st.currentSection = SectionState.arabicWords ∨
        st.currentSection = SectionState.approvedBy)
  · rw [if_pos h6] at hw
    rcases List.mem_append.mp hw with hw' | hw'
    · exact h w hw'
    · have hww : w = ⟨jsTrim ((jsTrim line).drop 3), []⟩ := List.mem_singleton.mp hw'
      subst hww
      exact heading_word_has_ink line h6.1
  rw [if_neg h6] at hw
  by_cases h7 : jsTrim line = str "### Approved By" ∧ st.result.arabicWords ≠ []
  · rw [if_pos h7] at hw
    exact h w hw
  rw [if_neg h7] at hw
  by_cases h8 : begins (str "- ") (jsTrim line) = true
  · rw [if_pos h8] at hw
    by_cases h8a : st.currentSection = SectionState.tags
    · rw [if_pos h8a] at hw
      exact h w hw
    rw [if_neg h8a] at hw
    by_cases h8b : st.currentSection = SectionState.approvedBy ∧ st.result.arabicWords ≠ []
    · rw [if_pos h8b] at hw
      obtain ⟨w0, hm, he⟩ := pushApprover_word _ _ w hw
      obtain ⟨c, hc, hcw⟩ := h w0 hm
      exact ⟨c, he ▸ hc, hcw⟩
    · rw [if_neg h8b] at hw
      exact h w hw
  rw [if_neg h8] at hw
  by_cases h9 : st.currentSection = SectionState.description ∧
      begins (str "## ") (jsTrim line) = true
  · rw [if_pos h9] at hw
    exact h w hw
  rw [if_neg h9] at hw
  by_cases h10 : st.currentSection = SectionState.description
  · rw [if_pos h10] at hw
    by_cases h11 : jsTrim line ≠ []
    · rw [if_pos h11] at hw
      exact h w hw
    · rw [if_neg h11] at hw
      exact h w hw
  · rw [if_neg h10] at hw
    exact h w hw

/-- Every Arabic word recorded by `parseMarkdown` contains a
non-whitespace character. -/
lemma parseMarkdown_ink (s : Str) :
    ∀ w ∈ (parseMarkdown s).arabicWords, ∃ c ∈ w.word, isWs c = false := by
  have hfold :
      ∀ w ∈ ((splitNl s).foldl processLine initState).result.arabicWords,
        ∃ c ∈ w.word, isWs c = false := by
    exact foldl_inv processLine
      (fun st => ∀ w ∈ st.result.arabicWords, ∃ c ∈ w.word, isWs c = false)
      (fun st line hst => processLine_ink st line hst)
      (splitNl s) initState (by simp [initState, emptyTerm])
  have harr : (parseMarkdown s).arabicWords
      = ((splitNl s).foldl processLine initState).result.arabicWords := by
    simp only [parseMarkdown, apply_ite Term.arabicWords, ite_self]
  intro w hw
  rw [harr] at hw
  exact hfold w hw

/-- The word text of every Arabic word produced by `parseMarkdown` is
non-blank (nonempty even after trimming). -/
lemma parseMarkdown_word_not_blank (s : Str) :
    ∀ aw ∈ (parseMarkdown s).arabicWords, jsTrim aw.word ≠ [] := by
  intro aw hm hnil
  obtain ⟨c, hc, hcw⟩ := parseMarkdown_ink s aw hm
  have := (jsTrim_eq_nil_iff aw.word).mp hnil c hc
  rw [this] at hcw
  simp at hcw

lemma message_ne_of_last {a b : Str} {x y : Char} (ha : a.getLast? = some x)
    (hb : b.getLast? = some y) (hxy : x ≠ y) : a ≠ b := by
  intro he
  subst he
  rw [ha] at hb
  exact hxy (Option.some.inj hb)

lemma message_ne_of_idx {a b : Str} {i : Nat} {x y : Char} (ha : a[i]? = some x)
    (hb : b[i]? = some y) (hxy : x ≠ y) : a ≠ b := by
  intro he
  subst he
  rw [ha] at hb
  exact hxy (Option.some.inj hb)

lemma emptyWordMsg_last (n : Nat) : (emptyWordMsg n).getLast? = some 'y' := by
  unfold emptyWordMsg
  rw [List.getLast?_append_of_ne_nil _ (by decide : str " is empty" ≠ [])]
  decide

lemma emptyWordMsg_idx_one (n : Nat) : (emptyWordMsg n)[1]? = some 'r' := by
  unfold emptyWordMsg
  have h13 : (str "Arabic word #").length = 13 := by decide
  have h1 : 1 < (str "Arabic word #" ++ natStr n).length := by
    rw [List.length_append]
    omega
  rw [List.getElem?_append_left h1,
    List.getElem?_append_left (by omega : 1 < (str "Arabic word #").length)]
  decide

lemma nonArabicWordMsg_last (n : Nat) (w : Str) :
    (nonArabicWordMsg n w).getLast? = some '"' := by
  unfold nonArabicWordMsg
  rw [List.getLast?_append_of_ne_nil _ (by decide : str "\"" ≠ [])]
  decide

lemma noApproverMsg_last (w : Str) : (noApproverMsg w).getLast? = some ')' := by
  unfold noApproverMsg
  rw [List.getLast?_append_of_ne_nil _
    (by decide : str "\" must have at least one approver (expected: ### Approved By with - username)" ≠ [])]
  decide

lemma msgTagsAr_idx_one (bad : List Str) : (msgTagsAr bad)[1]? = some 'l' := by
  unfold msgTagsAr
  rw [List.getElem?_append_left
    (by decide : 1 < (str "All tags must be in Arabic. Non-Arabic tags: ").length)]
  decide

/-- On a term all of whose Arabic words are non-blank,
`validateTermStructure` never emits the indexed empty-word message. -/
lemma validate_no_empty_word_msg (term : Term) (content filename : Str)
    (hterm : ∀ aw ∈ term.arabicWords, jsTrim aw.word ≠ []) :
    ∀ e ∈ validateTermStructure term content filename,
      ∀ n, e.message ≠ emptyWordMsg n := by
  intro e he n
  have hylast := emptyWordMsg_last n
  have hyidx := emptyWordMsg_idx_one n
  simp only [validateTermStructure] at he
  split at he
  · -- structural branch
    simp only [structuralErrors] at he
    split at he
    · have hee : e = ⟨filename, ErrType.required, msgTitleReq,
          findLineNumber (splitNl content) patH1 1⟩ := List.mem_singleton.mp he
      subst hee
      show msgTitleReq ≠ emptyWordMsg n
      exact message_ne_of_last (by decide : msgTitleReq.getLast? = some ')') hylast (by decide)
    · simp at he
  · rcases List.mem_append.mp he with he | he
    · -- description / tags errors
      simp only [headerErrors] at he
      rcases List.mem_append.mp he with he | he
      · split at he
        · have hee : e = ⟨filename, ErrType.required, msgDescReq,
              findLineNumber (splitNl content) patDesc 1⟩ := List.mem_singleton.mp he
          subst hee
          show msgDescReq ≠ emptyWordMsg n
          exact message_ne_of_last (by decide : msgDescReq.getLast? = some ')') hylast (by decide)
        · split at he
          · have hee : e = ⟨filename, ErrType.content, msgDescAr,
                findLineNumber (splitNl content) patDesc 1⟩ := List.mem_singleton.mp he
            subst hee
            show msgDescAr ≠ emptyWordMsg n
            exact message_ne_of_last (by decide : msgDescAr.getLast? = some 'c') hylast (by decide)
          · simp at he
      · split at he
        · have hee : e = ⟨filename, ErrType.required, msgTagsReq,
              findLineNumber (splitNl content) patTags 1⟩ := List.mem_singleton.mp he
          subst hee
          show msgTagsReq ≠ emptyWordMsg n
          exact message_ne_of_last (by decide : msgTagsReq.getLast? = some ')') hylast (by decide)
        · split at he
          · have hee : e = ⟨filename, ErrType.content,
                msgTagsAr (term.tags.filter fun tag => containsArabic tag = false),
                findLineNumber (splitNl content) patTags 1⟩ := List.mem_singleton.mp he
            subst hee
            show msgTagsAr (term.tags.filter fun tag => containsArabic tag = false)
                ≠ emptyWordMsg n
            exact message_ne_of_idx (msgTagsAr_idx_one _) hyidx (by decide)
          · simp at he
    · -- Arabic words section
      simp only [wordSectionErrors] at he
      split at he
      · have hee : e = ⟨filename, ErrType.required, msgWordsReq,
            findLineNumber (splitNl content) patAWords 1⟩ := List.mem_singleton.mp he
        subst hee
        show msgWordsReq ≠ emptyWordMsg n
        exact message_ne_of_last (by decide : msgWordsReq.getLast? = some ')') hylast (by decide)
      · obtain ⟨l, hl, hel⟩ := List.mem_flatten.mp he
        obtain ⟨p, hp, hpl⟩ := List.mem_map.mp hl
        subst hpl
        have hword : p.2 ∈ term.arabicWords := by
          have hg := List.mem_enum_iff_getElem?.mp hp
          exact List.getElem?_mem hg
        have hnb := hterm p.2 hword
        simp only [arabicWordErrors, if_neg hnb] at hel
        rcases List.mem_append.mp hel with he2 | he2
        · split at he2
          · have hee : e = ⟨filename, ErrType.content, nonArabicWordMsg (p.1 + 1) p.2.word,
                findLineNumber (splitNl content) (patWordExact p.2.word) 1⟩ :=
              List.mem_singleton.mp he2
            subst hee
            show nonArabicWordMsg (p.1 + 1) p.2.word ≠ emptyWordMsg n
            exact message_ne_of_last (nonArabicWordMsg_last _ _) hylast (by decide)
          · simp at he2
        · split at he2
          · have hee : e = ⟨filename, ErrType.required, noApproverMsg p.2.word,
                findLineNumber (splitNl content) patAB 1⟩ := List.mem_singleton.mp he2
            subst hee
            show noApproverMsg p.2.word ≠ emptyWordMsg n
            exact message_ne_of_last (noApproverMsg_last _) hylast (by decide)
          · simp at he2

lemma wsTokensAux_ne_nil : ∀ (s acc : Str), ∀ w ∈ wsTokensAux s acc, w ≠ [] := by
  intro s
  induction s with
  | nil =>
    intro acc w hw
    simp only [wsTokensAux] at hw
    split at hw
    · simp at hw
    · rename_i hne
      have hwe : w = acc.reverse := List.mem_singleton.mp hw
      subst hwe
      intro hnil
      rw [List.reverse_eq_nil_iff] at hnil
      subst hnil
      simp at hne
  | cons c rest ih =>
    intro acc w hw
    simp only [wsTokensAux] at hw
    split at hw
    · split at hw
      · exact ih [] w hw
      · rename_i hne
        rcases List.mem_cons.mp hw with hwe | hw2
        · subst hwe
          intro hnil
          rw [List.reverse_eq_nil_iff] at hnil
          subst hnil
          simp at hne
        · exact ih [] w hw2
    · exact ih (c :: acc) w hw

lemma wsTokens_ne_nil (s : Str) : ∀ w ∈ wsTokens s, w ≠ [] :=
  wsTokensAux_ne_nil s []

/-- Claim C4: `generateAbbreviation` agrees with its specification
(empty for empty or whitespace-only input; otherwise the concatenated
uppercase initials of the tokens outside the stop-word set), and
reproduces the five quoted examples. -/
theorem generateAbbreviation_correct :
    (∀ s : Str, generateAbbreviation s = generateAbbreviationSpec s)
    ∧ generateAbbreviation (str "Object Oriented Programming") = str "OOP"
    ∧ generateAbbreviation (str "Separation of Concerns") = str "SOC"
    ∧ generateAbbreviation (str "Design Patterns for Dummies") = str "DPD"
    ∧ generateAbbreviation (str "Microservices") = str "M"
    ∧ generateAbbreviation (str "") = str "" := by
  refine ⟨?_, by decide, by decide, by decide, by decide, by decide⟩
  intro s
  unfold generateAbbreviation generateAbbreviationSpec
  by_cases h : jsTrim s = []
  · rw [if_pos h, if_pos h]
  · rw [if_neg h, if_neg h]
    have hfil : ((wsTokens s).filter fun w => !w.isEmpty && !ignoreWords.contains (lowerStr w))
        = ((wsTokens s).filter fun w => !ignoreWords.contains (lowerStr w)) := by
      refine List.filter_congr fun w hw => ?_
      have hne : w.isEmpty = false := by
        rcases w with _ | ⟨c, cs⟩
        · exact absurd rfl (wsTokens_ne_nil s [] hw)
        · rfl
      rw [hne]
      simp
    rw [hfil]

/-- Claim C9: `parseMarkdown` signals an error exactly on non-string
input; every string input yields a `Term`, and the empty string yields
the all-empty `Term`. -/
theorem parseMarkdown_total_contract :
    (∀ v : JSValue, (∃ msg, parseMarkdownJS v = Except.error msg) ↔ ∀ s, v ≠ JSValue.strv s)
    ∧ (∀ s : Str, parseMarkdownJS (JSValue.strv s) = Except.ok (parseMarkdown s))
    ∧ parseMarkdown [] =
        { title := [], abbrv := [], description := [], tags := [], arabicWords := [] } := by
  refine ⟨?_, fun s => rfl, by decide⟩
  intro v
  cases v with
  | strv s =>
    constructor
    · rintro ⟨msg, hmsg⟩
      simp [parseMarkdownJS] at hmsg
    · intro hall
      exact absurd rfl (hall s)
  | nonStr tag =>
    constructor
    · intro _ s hs
      exact JSValue.noConfusion hs
    · intro _
      exact ⟨str "Content must be a string", rfl⟩

/-- Claim C10: every Arabic word recorded by `parseMarkdown` has
non-blank word text, so the `Arabic word #N is empty` branch of
`validateTermStructure` never fires on a parsed term. -/
theorem parsed_words_never_blank (s content filename : Str) :
    (∀ aw ∈ (parseMarkdown s).arabicWords, jsTrim aw.word ≠ [])
    ∧ (∀ e ∈ validateTermStructure (parseMarkdown s) content filename,
        ∀ n : Nat, e.message ≠ emptyWordMsg n) :=
  ⟨parseMarkdown_word_not_blank s,
   validate_no_empty_word_msg _ content filename (parseMarkdown_word_not_blank s)⟩

theorem parsed_words_never_blank_witness : jsTrim (str "ن") ≠ [] :=
  (parsed_words_never_blank (str "# T\n# Arabic Words\n## ن") (str "") (str "f.md")).1
    ⟨str "ن", []⟩ (by decide)

/-- Counterexample to claim C1: in the Description state a blank line is
NOT appended to the accumulated description (dropped, not preserved as a
paragraph break), and a `- ` list item line is not appended either: the
document `## Description\nA\n\n- B\nC` yields description `A\nC`, not
the `A\n\n- B\nC` the claim predicts. -/
theorem description_blank_lines_cex :
    (parseMarkdown (str "## Description\nA\n\n- B\nC")).description = str "A\nC"
    ∧ (parseMarkdown (str "## Description\nA\n\n- B\nC")).description ≠ str "A\n\n- B\nC" :=
  ⟨by decide, by decide⟩

/-- Claim C1 (amended): while in the Description state, a blank line
leaves the parser state (and hence the accumulated description)
unchanged, and a non-blank line matched by no earlier rule (not an H1
candidate while the title is unfound, not `## `-prefixed, not
`# Arabic Words`, not `### Approved By` with a current word, not a
`- ` list item) is trimmed and appended followed by a newline, with the
state remaining Description. -/
theorem description_accumulation (st : PState) (line : Str)
    (hd : st.currentSection = SectionState.description)
    (h1 : ¬(st.titleFound = false ∧ begins (str "# ") (jsTrim line) = true ∧
        begins (str "## ") (jsTrim line) = false))
    (h2 : begins (str "## ") (jsTrim line) = false)
    (h3 : jsTrim line ≠ str "# Arabic Words")
    (h4 : ¬(jsTrim line = str "### Approved By" ∧ st.result.arabicWords ≠ []))
    (h5 : begins (str "- ") (jsTrim line) = false) :
    (jsTrim line = [] → processLine st line = st)
    ∧ (jsTrim line ≠ [] →
        (processLine st line).result.description
            = st.result.description ++ jsTrim line ++ ['\n']
        ∧ (processLine st line).currentSection = SectionState.description) := by
  have hD : jsTrim line ≠ str "## Description" := by
    intro hh
    rw [hh] at h2
    exact absurd h2 (by decide)
  have hT : jsTrim line ≠ str "## Tags" := by
    intro hh
    rw [hh] at h2
    exact absurd h2 (by decide)
  have h9 : ¬(st.currentSection = SectionState.description ∧
      begins (str "## ") (jsTrim line) = true) := by
    intro hh
    rw [h2] at hh
    simp at hh
  constructor
  · intro ht
    rw [processLine.eq_def,
      if_neg (by rw [hd]; simp : ¬(jsTrim line = [] ∧ st.currentSection ≠ SectionState.description)),
      if_neg h1, if_neg hD, if_neg hT, if_neg h3,
      if_neg (by rw [h2]; simp :
        ¬(begins (str "## ") (jsTrim line) = true ∧
          (st.currentSection = SectionState.arabicWords ∨
            st.currentSection = SectionState.approvedBy))),
      if_neg h4, if_neg (by rw [h5]; simp : ¬begins (str "- ") (jsTrim line) = true),
      if_neg h9, if_pos hd, if_neg (by simp [ht] : ¬jsTrim line ≠ [])]
  · intro ht
    rw [processLine.eq_def,
      if_neg (fun hh => ht hh.1),
      if_neg h1, if_neg hD, if_neg hT, if_neg h3,
      if_neg (by rw [h2]; simp :
        ¬(begins (str "## ") (jsTrim line) = true ∧
          (st.currentSection = SectionState.arabicWords ∨
            st.currentSection = SectionState.approvedBy))),
      if_neg h4, if_neg (by rw [h5]; simp : ¬begins (str "- ") (jsTrim line) = true),
      if_neg h9, if_pos hd, if_pos ht]
    exact ⟨rfl, hd⟩

theorem description_accumulation_witness :
    (jsTrim (str "hello world") = [] →
      processLine ⟨emptyTerm, SectionState.description, true⟩ (str "hello world")
        = ⟨emptyTerm, SectionState.description, true⟩)
    ∧ (jsTrim (str "hello world") ≠ [] →
        (processLine ⟨emptyTerm, SectionState.description, true⟩
            (str "hello world")).result.description
          = emptyTerm.description ++ jsTrim (str "hello world") ++ ['\n']
        ∧ (processLine ⟨emptyTerm, SectionState.description, true⟩
            (str "hello world")).currentSection = SectionState.description) :=
  description_accumulation ⟨emptyTerm, SectionState.description, true⟩ (str "hello world")
    rfl (by decide) (by decide) (by decide) (by decide) (by decide)

/-- Counterexample to claim C5: the line `## Description`, although it
starts with `## ` and arrives in the ArabicWords state, is consumed by
the earlier `## Description` rule — no Arabic word is pushed and the
state becomes Description, not ArabicWords. -/
theorem word_heading_cex :
    ¬(∀ (st : PState) (line : Str),
        (st.currentSection = SectionState.arabicWords ∨
          st.currentSection = SectionState.approvedBy) →
        begins (str "## ") (jsTrim line) = true →
        (processLine st line).result.arabicWords
            = st.result.arabicWords ++ [⟨jsTrim ((jsTrim line).drop 3), []⟩]
          ∧ (processLine st line).currentSection = SectionState.arabicWords) := by
  intro h
  have h2 := h ⟨emptyTerm, SectionState.arabicWords, true⟩ (str "## Description")
    (Or.inl rfl) (by decide)
  exact absurd h2.2 (by decide)

/-- Claim C5 (amended): every line starting with `## ` that is not
exactly `## Description` or `## Tags`, met in the ArabicWords or
ApprovedBy state, pushes a new Arabic word (the `## ` prefix dropped,
the rest trimmed, the approver list empty) and switches the state to
ArabicWords. -/
theorem word_heading_amended (st : PState) (line : Str)
    (hs : st.currentSection = SectionState.arabicWords ∨
      st.currentSection = SectionState.approvedBy)
    (hp : begins (str "## ") (jsTrim line) = true)
    (hd : jsTrim line ≠ str "## Description")
    (ht : jsTrim line ≠ str "## Tags") :
    (processLine st line).result.arabicWords
        = st.result.arabicWords ++ [⟨jsTrim ((jsTrim line).drop 3), []⟩]
    ∧ (processLine st line).currentSection = SectionState.arabicWords := by
  have htne : jsTrim line ≠ [] := by
    intro hnil
    rw [hnil] at hp
    exact absurd hp (by decide)
  have hno2 : ¬(st.titleFound = false ∧ begins (str "# ") (jsTrim line) = true ∧
      begins (str "## ") (jsTrim line) = false) := by
    intro hh
    rw [hp] at hh
    simp at hh
  have hno5 : jsTrim line ≠ str "# Arabic Words" := by
    intro hh
    rw [hh] at hp
    exact absurd hp (by decide)
  rw [processLine.eq_def, if_neg (fun hh => htne hh.1), if_neg hno2, if_neg hd, if_neg ht,
    if_neg hno5, if_pos (And.intro hp hs)]
  exact ⟨rfl, rfl⟩

theorem word_heading_amended_witness :
    (processLine ⟨emptyTerm, SectionState.arabicWords, true⟩ (str "## كلمة")).result.arabicWords
        = emptyTerm.arabicWords ++ [⟨jsTrim ((jsTrim (str "## كلمة")).drop 3), []⟩]
    ∧ (processLine ⟨emptyTerm, SectionState.arabicWords, true⟩
        (str "## كلمة")).currentSection = SectionState.arabicWords :=
  word_heading_amended ⟨emptyTerm, SectionState.arabicWords, true⟩ (str "## كلمة")
    (Or.inl rfl) (by decide) (by decide) (by decide)

/-- Counterexample to claim C6: when `# Arabic Words` is the first
H1-shaped line of the document (the title not yet found), it is consumed
as the title — the state does not become ArabicWords. -/
theorem arabic_words_heading_cex :
    ¬(∀ (st : PState) (line : Str), jsTrim line = str "# Arabic Words" →
        (processLine st line).currentSection = SectionState.arabicWords) := by
  intro h
  have h2 := h initState (str "# Arabic Words") (by decide)
  exact absurd h2 (by decide)

/-- Claim C6 (amended): a line whose trimmed text is exactly
`# Arabic Words` enters the ArabicWords state whenever the title has
already been found; when the title is not yet found, the line is instead
consumed by the title rule — the state is set to None, the title becomes
`Arabic Words`, and the latch is set. -/
theorem arabic_words_heading_amended (st : PState) (line : Str)
    (hl : jsTrim line = str "# Arabic Words") :
    (st.titleFound = true →
      (processLine st line).currentSection = SectionState.arabicWords)
    ∧ (st.titleFound = false →
        (processLine st line).currentSection = SectionState.none
        ∧ (processLine st line).result.title = str "Arabic Words"
        ∧ (processLine st line).titleFound = true) := by
  have hno1 : ¬(jsTrim line = [] ∧ st.currentSection ≠ SectionState.description) := by
    intro hh
    rw [hl] at hh
    exact absurd hh.1 (by decide)
  have hD : jsTrim line ≠ str "## Description" := by
    rw [hl]; decide
  have hT : jsTrim line ≠ str "## Tags" := by
    rw [hl]; decide
  constructor
  · intro htf
    have hno2 : ¬(st.titleFound = false ∧ begins (str "# ") (jsTrim line) = true ∧
        begins (str "## ") (jsTrim line) = false) := by
      intro hh
      rw [htf] at hh
      simp at hh
    rw [processLine.eq_def, if_neg hno1, if_neg hno2, if_neg hD, if_neg hT, if_pos hl]
  · intro htf
    rw [processLine.eq_def, if_neg hno1,
      if_pos (And.intro htf (And.intro (by rw [hl]; decide) (by rw [hl]; decide))),
      show titleMatch ((jsTrim line).drop 2) = some (str "Arabic Words", []) from by
        rw [hl]; decide]
    exact ⟨rfl, (by decide : jsTrim (str "Arabic Words") = str "Arabic Words"), rfl⟩

theorem arabic_words_heading_amended_witness :
    ((⟨emptyTerm, SectionState.none, true⟩ : PState).titleFound = true →
      (processLine ⟨emptyTerm, SectionState.none, true⟩
        (str "# Arabic Words")).currentSection = SectionState.arabicWords)
    ∧ ((⟨emptyTerm, SectionState.none, true⟩ : PState).titleFound = false →
        (processLine ⟨emptyTerm, SectionState.none, true⟩
          (str "# Arabic Words")).currentSection = SectionState.none
        ∧ (processLine ⟨emptyTerm, SectionState.none, true⟩
            (str "# Arabic Words")).result.title = str "Arabic Words"
        ∧ (processLine ⟨emptyTerm, SectionState.none, true⟩
            (str "# Arabic Words")).titleFound = true) :=
  arabic_words_heading_amended ⟨emptyTerm, SectionState.none, true⟩ (str "# Arabic Words")
    (by decide)

/-- Claim C2: on a term passing the structural gate with at least one
Arabic word, the validator's output is the header errors followed by,
for each word in document order, exactly the errors described by
`wordErrorsSpec`; a non-blank, non-Arabic word with no approvers
produces both the content error and the required error. -/
theorem validate_word_errors (term : Term) (content filename : Str)
    (hv : isValidTerm term = true) (hw : term.arabicWords ≠ []) :
    validateTermStructure term content filename
      = headerErrors term (splitNl content) filename
        ++ (term.arabicWords.enum.map fun p =>
            wordErrorsSpec filename (splitNl content) p.1 p.2).flatten
    ∧ ∀ i aw, term.arabicWords[i]? = some aw →
        jsTrim aw.word ≠ [] → containsArabic aw.word = false → aw.approvedBy = [] →
        wordErrorsSpec filename (splitNl content) i aw
          = [⟨filename, ErrType.content, nonArabicWordMsg (i + 1) aw.word,
              findLineNumber (splitNl content) (patWordExact aw.word) 1⟩,
             ⟨filename, ErrType.required, noApproverMsg aw.word,
              findLineNumber (splitNl content) patAB 1⟩] := by
  constructor
  · simp only [validateTermStructure, wordSectionErrors]
    rw [if_neg (by simp [hv]), if_neg hw]
    rfl
  · intro i aw hga hnb hna hap
    simp only [wordErrorsSpec]
    rw [if_neg hnb, if_pos hna, if_pos hap]
    rfl

theorem validate_word_errors_witness :
    wordErrorsSpec (str "f.md") (splitNl (str "")) 0 ⟨str "latin", []⟩
      = [⟨str "f.md", ErrType.content, nonArabicWordMsg 1 (str "latin"),
          findLineNumber (splitNl (str "")) (patWordExact (str "latin")) 1⟩,
         ⟨str "f.md", ErrType.required, noApproverMsg (str "latin"),
          findLineNumber (splitNl (str "")) patAB 1⟩] :=
  (validate_word_errors ⟨str "T", [], [], [], [⟨str "latin", []⟩]⟩ (str "") (str "f.md")
    (by decide) (by decide)).2 0 ⟨str "latin", []⟩ (by decide) (by decide) (by decide)
    (by decide)

/-! ## Lemmas about the approver counting map -/

/-- The total count stored for key `u` in the association-list model of
the JavaScript `Map` (the sum of the values of entries with key `u`). -/
def cntKey (m : List (Str × Nat)) (u : Str) : Nat :=
  (m.map fun p => if p.1 = u then p.2 else 0).sum

lemma cntKey_nil (u : Str) : cntKey [] u = 0 := rfl

lemma cntKey_cons (p : Str × Nat) (rest : List (Str × Nat)) (u : Str) :
    cntKey (p :: rest) u = (if p.1 = u then p.2 else 0) + cntKey rest u := by
  simp [cntKey]

lemma bump_cnt (m : List (Str × Nat)) (u v : Str) :
    cntKey (bump m u) v = cntKey m v + (if u = v then 1 else 0) := by
  induction m with
  | nil => by_cases h : u = v <;> simp [bump, cntKey, h]
  | cons p rest ih =>
    rcases p with ⟨k, val⟩
    by_cases hk : k = u
    · rw [bump, if_pos hk, cntKey_cons, cntKey_cons]
      by_cases hv : k = v
      · rw [if_pos hv, if_pos hv, if_pos (hk ▸ hv)]
        omega
      · rw [if_neg hv, if_neg hv, if_neg (hk ▸ hv)]
        omega
    · rw [bump, if_neg hk, cntKey_cons, cntKey_cons, ih]
      omega

lemma bump_keys (m : List (Str × Nat)) (u : Str) :
    (bump m u).map Prod.fst
      = if u ∈ m.map Prod.fst then m.map Prod.fst else m.map Prod.fst ++ [u] := by
  induction m with
  | nil => simp [bump]
  | cons p rest ih =>
    rcases p with ⟨k, val⟩
    by_cases hk : k = u
    · rw [bump, if_pos hk]
      simp [hk]
    · rw [bump, if_neg hk]
      by_cases hu : u ∈ rest.map Prod.fst
      · simp only [List.map_cons, List.mem_cons]
        rw [if_pos (Or.inr hu)]
        simp only [ih, if_pos hu]
      · simp only [List.map_cons, List.mem_cons]
        rw [if_neg (fun h => h.elim (fun h1 => hk h1.symm) hu)]
        simp only [ih, if_neg hu, List.cons_append]

lemma bump_inv (m : List (Str × Nat)) (u : Str)
    (h : (m.map Prod.fst).Nodup ∧ ∀ p ∈ m, 0 < p.2) :
    ((bump m u).map Prod.fst).Nodup ∧ ∀ p ∈ bump m u, 0 < p.2 := by
  constructor
  · rw [bump_keys]
    split
    · exact h.1
    · rename_i hni
      rw [List.nodup_append]
      exact ⟨h.1, List.nodup_singleton u, by simpa using hni⟩
  · intro p hp
    induction m with
    | nil =>
      have : p = (u, 1) := by simpa [bump] using hp
      simp [this]
    | cons q rest ih =>
      rcases q with ⟨k, val⟩
      have hq : 0 < val := h.2 (k, val) (List.mem_cons_self _ _)
      by_cases hk : k = u
      · rw [bump, if_pos hk] at hp
        rcases List.mem_cons.mp hp with hpe | hpm
        · simp [hpe]
        · exact h.2 p (List.mem_cons_of_mem _ hpm)
      · rw [bump, if_neg hk] at hp
        rcases List.mem_cons.mp hp with hpe | hpm
        · simp [hpe, hq]
        · exact ih ⟨(List.nodup_cons.mp h.1).2, fun q hqm => h.2 q (List.mem_cons_of_mem _ hqm)⟩ hpm

lemma cntKey_eq_zero_of_not_mem (m : List (Str × Nat)) (u : Str)
    (h : u ∉ m.map Prod.fst) : cntKey m u = 0 := by
  induction m with
  | nil => rfl
  | cons p rest ih =>
    have h1 : ¬p.1 = u := by
      intro he
      exact h (by simp [he])
    have h2 : u ∉ rest.map Prod.fst := by
      intro hm
      exact h (by simp [hm])
    rw [cntKey_cons, if_neg h1, ih h2]

lemma sum_ind_eq_count (us : List Str) (v : Str) :
    (us.map fun u => if u = v then 1 else 0).sum = us.count v := by
  induction us with
  | nil => simp
  | cons a t ih =>
    by_cases h : a = v <;> simp [List.count_cons, h, ih, Nat.add_comm]

lemma foldl_cnt {α : Type} (f : List (Str × Nat) → α → List (Str × Nat)) (g : α → Str → Nat)
    (hfg : ∀ m x v, cntKey (f m x) v = cntKey m v + g x v) :
    ∀ (l : List α) (m : List (Str × Nat)) (v : Str),
      cntKey (l.foldl f m) v = cntKey m v + (l.map fun x => g x v).sum := by
  intro l
  induction l with
  | nil => simp
  | cons a t ih =>
    intro m v
    rw [List.foldl_cons, ih, hfg]
    simp [Nat.add_assoc]

lemma bumpWord_cnt (m : List (Str × Nat)) (w : LooseWord) (v : Str) :
    cntKey (bumpWord m w) v
      = cntKey m v + (match w.approvedBy with
          | Option.none => 0
          | some us => us.count v) := by
  rcases w with ⟨_ | us⟩
  · simp [bumpWord]
  · show cntKey (us.foldl bump m) v = _
    rw [foldl_cnt bump (fun u v => if u = v then 1 else 0) (fun m u v => bump_cnt m u v) us m v]
    rw [sum_ind_eq_count]

lemma bumpTerm_cnt (m : List (Str × Nat)) (t : LooseTerm) (v : Str) :
    cntKey (bumpTerm m t) v
      = cntKey m v + (match t.arabicWords with
          | Option.none => 0
          | some ws =>
            (ws.map fun w =>
              match w.approvedBy with
              | Option.none => 0
              | some us => us.count v).sum) := by
  rcases t with ⟨_ | ws⟩
  · simp [bumpTerm]
  · show cntKey (ws.foldl bumpWord m) v = _
    rw [foldl_cnt bumpWord _ (fun m w v => bumpWord_cnt m w v) ws m v]

lemma approverCounts_cnt (terms : List LooseTerm) (v : Str) :
    cntKey (approverCounts terms) v = occCount v terms := by
  unfold approverCounts occCount
  rw [foldl_cnt bumpTerm _ (fun m t v => bumpTerm_cnt m t v) terms [] v]
  simp [cntKey]

lemma approverCounts_inv (terms : List LooseTerm) :
    ((approverCounts terms).map Prod.fst).Nodup ∧ ∀ p ∈ approverCounts terms, 0 < p.2 := by
  unfold approverCounts
  refine foldl_inv bumpTerm
    (fun m => (m.map Prod.fst).Nodup ∧ ∀ p ∈ m, 0 < p.2) ?_ terms [] ⟨by simp, by simp⟩
  intro m t hm
  rcases t with ⟨_ | ws⟩
  · exact hm
  · show ((ws.foldl bumpWord m).map Prod.fst).Nodup ∧ ∀ p ∈ ws.foldl bumpWord m, 0 < p.2
    refine foldl_inv bumpWord
      (fun m => (m.map Prod.fst).Nodup ∧ ∀ p ∈ m, 0 < p.2) ?_ ws m hm
    intro m2 w hm2
    rcases w with ⟨_ | us⟩
    · exact hm2
    · exact foldl_inv bump
        (fun m => (m.map Prod.fst).Nodup ∧ ∀ p ∈ m, 0 < p.2)
        (fun m3 u h3 => bump_inv m3 u h3) us m2 hm2

lemma mem_of_cnt_pos (m : List (Str × Nat)) (u : Str) (h : 0 < cntKey m u) :
    ∃ c, (u, c) ∈ m := by
  induction m with
  | nil => simp [cntKey] at h
  | cons p rest ih =>
    rw [cntKey_cons] at h
    by_cases hp : p.1 = u
    · exact ⟨p.2, hp ▸ List.mem_cons_self _ _⟩
    · rw [if_neg hp] at h
      obtain ⟨c, hc⟩ := ih (by omega)
      exact ⟨c, List.mem_cons_of_mem _ hc⟩

lemma cnt_eq_of_mem_nodup (m : List (Str × Nat)) (hnd : (m.map Prod.fst).Nodup)
    (u : Str) (c : Nat) (hm : (u, c) ∈ m) : cntKey m u = c := by
  induction m with
  | nil => simp at hm
  | cons p rest ih =>
    rw [List.map_cons] at hnd
    have hnd1 := (List.nodup_cons.mp hnd).1
    have hnd2 := (List.nodup_cons.mp hnd).2
    rcases List.mem_cons.mp hm with hpe | hpm
    · rw [cntKey_cons, ← hpe]
      rw [if_pos rfl]
      have hnk : u ∉ rest.map Prod.fst := by
        rw [← hpe] at hnd1
        exact hnd1
      rw [cntKey_eq_zero_of_not_mem rest u hnk]
      omega
    · have hu : u ∈ rest.map Prod.fst := List.mem_map.mpr ⟨(u, c), hpm, rfl⟩
      have hne : ¬p.1 = u := by
        intro he
        rw [he] at hnd1
        exact hnd1 hu
      rw [cntKey_cons, if_neg hne, ih hnd2 hpm]
      omega

lemma sortByCmp_perm {α : Type} (key : α → Str) (cmp : Str → Str → Ordering) (l : List α) :
    (sortByCmp key cmp l).Perm l :=
  List.perm_insertionSort _ l

lemma sortByCmp_sorted {α : Type} (key : α → Str) (cmp : Str → Str → Ordering) (l : List α)
    (htot : ∀ a b : Str, cmp a b ≠ Ordering.gt ∨ cmp b a ≠ Ordering.gt)
    (htr : ∀ a b c : Str, cmp a b ≠ Ordering.gt → cmp b c ≠ Ordering.gt →
      cmp a c ≠ Ordering.gt) :
    List.Sorted (fun a b => cmp (key a) (key b) ≠ Ordering.gt) (sortByCmp key cmp l) := by
  haveI : IsTotal α (fun a b => cmp (key a) (key b) ≠ Ordering.gt) := ⟨fun a b => htot _ _⟩
  haveI : IsTrans α (fun a b => cmp (key a) (key b) ≠ Ordering.gt) := ⟨fun a b c => htr _ _ _⟩
  exact List.sorted_insertionSort _ l

/-- Claim C3: `aggregateApprovers` has exactly one entry per occurring
username; each entry's count is the total number of occurrences of that
username across all approver lists (duplicates counted, missing fields
treated as empty); and the result is sorted ascending by username with
respect to the default collation (assumed total and transitive). -/
theorem aggregateApprovers_correct (lc : Str → Str → Ordering) (terms : List LooseTerm)
    (htot : ∀ a b : Str, lc a b ≠ Ordering.gt ∨ lc b a ≠ Ordering.gt)
    (htr : ∀ a b c : Str, lc a b ≠ Ordering.gt → lc b c ≠ Ordering.gt →
      lc a c ≠ Ordering.gt) :
    ((aggregateApprovers lc terms).map ApproverInfo.username).Nodup
    ∧ (∀ e ∈ aggregateApprovers lc terms,
        e.approveCount = occCount e.username terms ∧ 0 < occCount e.username terms)
    ∧ (∀ u : Str, 0 < occCount u terms →
        ∃ e ∈ aggregateApprovers lc terms, e.username = u)
    ∧ List.Sorted (fun a b : ApproverInfo => lc a.username b.username ≠ Ordering.gt)
        (aggregateApprovers lc terms) := by
  have hperm : (aggregateApprovers lc terms).Perm
      ((approverCounts terms).map fun p => (⟨p.1, p.2⟩ : ApproverInfo)) :=
    sortByCmp_perm _ _ _
  have hinv := approverCounts_inv terms
  have husers : ((aggregateApprovers lc terms).map ApproverInfo.username).Perm
      ((approverCounts terms).map Prod.fst) := by
    have hmap := hperm.map ApproverInfo.username
    simpa [List.map_map, Function.comp] using hmap
  refine ⟨husers.nodup_iff.mpr hinv.1, ?_, ?_, sortByCmp_sorted _ _ _ htot htr⟩
  · intro e he
    have hme : e ∈ (approverCounts terms).map fun p => (⟨p.1, p.2⟩ : ApproverInfo) :=
      hperm.mem_iff.mp he
    obtain ⟨p, hpm, hpe⟩ := List.mem_map.mp hme
    rcases p with ⟨u2, c2⟩
    cases hpe
    have hc := cnt_eq_of_mem_nodup _ hinv.1 u2 c2 hpm
    rw [approverCounts_cnt] at hc
    constructor
    · exact hc.symm
    · show 0 < occCount u2 terms
      rw [hc]
      exact hinv.2 (u2, c2) hpm
  · intro u hocc
    have hcnt : 0 < cntKey (approverCounts terms) u := by
      rw [approverCounts_cnt]
      exact hocc
    obtain ⟨c, hc⟩ := mem_of_cnt_pos _ _ hcnt
    refine ⟨⟨u, c⟩, ?_, rfl⟩
    exact hperm.mem_iff.mpr (List.mem_map.mpr ⟨(u, c), hc, rfl⟩)

theorem aggregateApprovers_correct_witness :
    ((aggregateApprovers (fun _ _ => Ordering.eq)
        [⟨some [⟨some [str "bob", str "alice", str "bob"]⟩]⟩]).map
      ApproverInfo.username).Nodup :=
  (aggregateApprovers_correct (fun _ _ => Ordering.eq)
    [⟨some [⟨some [str "bob", str "alice", str "bob"]⟩]⟩]
    (fun _ _ => Or.inl fun h => nomatch h)
    (fun _ _ _ _ _ h3 => nomatch h3)).1

lemma extractSlug_endsMd (name : Str) (h : endsMd name = true) :
    extractSlug name ++ str ".md" = name := by
  obtain ⟨r, hr⟩ := (begins_iff _ _).mp h
  have hname : name = r.reverse ++ ['.', 'm', 'd'] := by
    have h2 := congrArg List.reverse hr
    rw [List.reverse_reverse, List.reverse_append,
      (by decide : (str "dm.").reverse = ['.', 'm', 'd'])] at h2
    exact h2
  have hsuf : mdSuffix name = true := by
    unfold mdSuffix
    apply (begins_iff _ _).mpr
    refine ⟨r.map Char.toLower, ?_⟩
    rw [hr, List.map_append, (by decide : (str "dm.").map Char.toLower = str "dm.")]
  unfold extractSlug
  rw [if_pos hsuf, hname]
  have hlen : (r.reverse ++ ['.', 'm', 'd']).length - 3 = r.reverse.length := by
    simp
  rw [hlen, List.take_left]
  rfl

lemma generateIndex_fold_mem :
    ∀ (entries : List DirEntry) (acc : List TermIndex) (ti : TermIndex),
      ti ∈ entries.foldl (fun acc e =>
          if e.isFile && endsMd e.name then
            match parseTermFile e with
            | some t => acc ++ [toTermIndex e.name t]
            | Option.none => acc
          else acc) acc →
      ti ∈ acc ∨ ∃ e ∈ entries, e.isFile = true ∧ endsMd e.name = true ∧
        ∃ tm, parseTermFile e = some tm ∧ ti = toTermIndex e.name tm := by
  intro entries
  induction entries with
  | nil =>
    intro acc ti h
    exact Or.inl h
  | cons e rest ih =>
    intro acc ti h
    rw [List.foldl_cons] at h
    rcases ih _ ti h with hacc | ⟨e2, hm, h2⟩
    · by_cases hc : (e.isFile && endsMd e.name) = true
      · rw [if_pos hc] at hacc
        cases hp : parseTermFile e with
        | none =>
          rw [hp] at hacc
          exact Or.inl hacc
        | some tm =>
          rw [hp] at hacc
          rcases List.mem_append.mp hacc with h3 | h3
          · exact Or.inl h3
          · right
            refine ⟨e, List.mem_cons_self _ _, (Bool.and_eq_true _ _ |>.mp hc).1,
              (Bool.and_eq_true _ _ |>.mp hc).2, tm, hp, List.mem_singleton.mp h3⟩
      · rw [if_neg hc] at hacc
        exact Or.inl hacc
    · exact Or.inr ⟨e2, List.mem_cons_of_mem _ hm, h2⟩

/-- Claim C7: every entry emitted by `generateIndex` comes from a `.md`
file entry; its slug is the filename with the one trailing `.md`
stripped (the rest unchanged: slug ++ ".md" is the filename), and the
`abbrev` field is present exactly when the parsed term's abbreviation is
nonempty. -/
theorem generateIndex_entry_shape (lc : Str → Str → Ordering) (entries : List DirEntry)
    (now : Str) :
    ∀ ti ∈ (generateIndex lc entries now).terms,
      ∃ e ∈ entries, e.isFile = true ∧ endsMd e.name = true ∧
        ∃ tm, parseTermFile e = some tm ∧
          ti.slug = extractSlug e.name ∧
          ti.slug ++ str ".md" = e.name ∧
          ti.title = tm.title ∧
          ti.abbrv = (if tm.abbrv = [] then Option.none else some tm.abbrv) ∧
          (ti.abbrv = Option.none ↔ tm.abbrv = []) := by
  intro ti hti
  have hmem := (sortByCmp_perm (fun ti : TermIndex => ti.title) lc _).mem_iff.mp hti
  rcases generateIndex_fold_mem entries [] ti hmem with hnil | ⟨e, hme, hf, hmd, tm, hp, hti2⟩
  · simp at hnil
  · refine ⟨e, hme, hf, hmd, tm, hp, ?_, ?_, ?_, ?_, ?_⟩
    · rw [hti2]; rfl
    · rw [hti2]
      show extractSlug e.name ++ str ".md" = e.name
      exact extractSlug_endsMd e.name hmd
    · rw [hti2]; rfl
    · rw [hti2]; rfl
    · rw [hti2]
      show (if tm.abbrv = [] then Option.none else some tm.abbrv) = Option.none ↔ tm.abbrv = []
      constructor
      · intro hn
        by_contra hne
        rw [if_neg hne] at hn
        exact Option.noConfusion hn
      · intro he
        rw [if_pos he]

theorem generateIndex_entry_shape_witness :
    ∃ e ∈ [DirEntry.mk (str "api.md") true (some (str "# Application Programming Interface (API)"))],
      e.isFile = true ∧ endsMd e.name = true ∧
      ∃ tm, parseTermFile e = some tm ∧
        (TermIndex.mk (str "api") (str "Application Programming Interface")
            (some (str "API"))).slug = extractSlug e.name ∧
        (TermIndex.mk (str "api") (str "Application Programming Interface")
            (some (str "API"))).slug ++ str ".md" = e.name ∧
        (TermIndex.mk (str "api") (str "Application Programming Interface")
            (some (str "API"))).title = tm.title ∧
        (TermIndex.mk (str "api") (str "Application Programming Interface")
            (some (str "API"))).abbrv
          = (if tm.abbrv = [] then Option.none else some tm.abbrv) ∧
        ((TermIndex.mk (str "api") (str "Application Programming Interface")
            (some (str "API"))).abbrv = Option.none ↔ tm.abbrv = []) :=
  generateIndex_entry_shape (fun _ _ => Ordering.eq)
    [DirEntry.mk (str "api.md") true (some (str "# Application Programming Interface (API)"))]
    (str "T")
    (TermIndex.mk (str "api") (str "Application Programming Interface") (some (str "API")))
    (by decide)

/-- Claim C8: the terms of a `CategoryIndex` are sorted ascending by
title using the default collation `lc` (`localeCompare` with no locale
argument), whereas the categories of the `RootIndex` are sorted
ascending by name using the Arabic collation `lcAr`
(`localeCompare(..., "ar")`); each collation is assumed total and
transitive. -/
theorem index_sort_collations (lc lcAr : Str → Str → Ordering)
    (entries : List DirEntry) (catEntries : List CatDirEntry) (now : Str)
    (htot : ∀ a b : Str, lc a b ≠ Ordering.gt ∨ lc b a ≠ Ordering.gt)
    (htr : ∀ a b c : Str, lc a b ≠ Ordering.gt → lc b c ≠ Ordering.gt →
      lc a c ≠ Ordering.gt)
    (htotAr : ∀ a b : Str, lcAr a b ≠ Ordering.gt ∨ lcAr b a ≠ Ordering.gt)
    (htrAr : ∀ a b c : Str, lcAr a b ≠ Ordering.gt → lcAr b c ≠ Ordering.gt →
      lcAr a c ≠ Ordering.gt) :
    List.Sorted (fun a b : TermIndex => lc a.title b.title ≠ Ordering.gt)
      (generateIndex lc entries now).terms
    ∧ List.Sorted (fun a b : CategoryEntry => lcAr a.name b.name ≠ Ordering.gt)
      (generateCategoriesIndex lc lcAr catEntries now).categories :=
  ⟨sortByCmp_sorted (fun ti : TermIndex => ti.title) lc _ htot htr,
   sortByCmp_sorted (fun c : CategoryEntry => c.name) lcAr _ htotAr htrAr⟩

theorem index_sort_collations_witness :
    List.Sorted
      (fun a b : TermIndex =>
        (fun _ _ : Str => Ordering.eq) a.title b.title ≠ Ordering.gt)
      (generateIndex (fun _ _ => Ordering.eq)
        [DirEntry.mk (str "b.md") true (some (str "# B")),
         DirEntry.mk (str "a.md") true (some (str "# A"))] (str "T")).terms
    ∧ List.Sorted
      (fun a b : CategoryEntry =>
        (fun _ _ : Str => Ordering.lt) a.name b.name ≠ Ordering.gt)
      (generateCategoriesIndex (fun _ _ => Ordering.eq) (fun _ _ => Ordering.lt)
        [CatDirEntry.mk (str "c") true Option.none
          [DirEntry.mk (str "a.md") true (some (str "# A"))]] (str "T")).categories :=
  index_sort_collations (fun _ _ => Ordering.eq) (fun _ _ => Ordering.lt)
    [DirEntry.mk (str "b.md") true (some (str "# B")),
     DirEntry.mk (str "a.md") true (some (str "# A"))]
    [CatDirEntry.mk (str "c") true Option.none
      [DirEntry.mk (str "a.md") true (some (str "# A"))]] (str "T")
    (fun _ _ => Or.inl fun h => nomatch h)
    (fun _ _ _ _ _ h3 => nomatch h3)
    (fun _ _ => Or.inl fun h => nomatch h)
    (fun _ _ _ _ _ h3 => nomatch h3)
